import Mathlib

/-!
Verification of the content-resolution core of an Echo360 bulk downloader
(`src/main.py`) against its natural-language specification.

The Python source is shallowly embedded: each resolver becomes a pure Lean
function over explicit data (JSON payloads become structures/inductives, the
two regular expressions become executable matchers over `List Char`, Python
exceptions become `Except String` with the script's error messages, and
`list(set(...))`, whose iteration order Python does not fix, becomes a
relation over all duplicate-free reorderings).
-/

/- ### Syllabus tree: `extract_lesson_ids` / `extract_lesson_ids_recursive` (main.py:265-292) -/

/-- One entry of the syllabus JSON document: `SyllabusLessonType` carries the
`hasContent`/`hasVideo` flags and the lesson id, `SyllabusGroupType` carries
its ordered `lessons` children, and any other `type` string is inert. -/
inductive SyllabusEntry where
  | lessonEntry (hasContent hasVideo : Bool) (lessonId : String)
  | groupEntry (lessons : List SyllabusEntry)
  | otherEntry
deriving Repr

mutual

/-- `extract_lesson_ids_recursive` (main.py:277-292): a lesson entry yields its
id iff `hasContent is True and hasVideo is True`; a group entry recurses over
its children in order, concatenating; anything else yields nothing. -/
def extract_lesson_ids_recursive : SyllabusEntry → List String
  | .lessonEntry hc hv i => if hc && hv then [i] else []
  | .groupEntry ls => extract_lesson_ids_list ls
  | .otherEntry => []

/-- The `for entry in ...: lesson_ids += extract_lesson_ids_recursive(entry)`
accumulation used both at top level and inside groups. -/
def extract_lesson_ids_list : List SyllabusEntry → List String
  | [] => []
  | e :: rest => extract_lesson_ids_recursive e ++ extract_lesson_ids_list rest

end

/-- `extract_lesson_ids` (main.py:265-274): accumulate over the top-level
`data` list. -/
def extract_lesson_ids (syllabus_data : List SyllabusEntry) : List String :=
  extract_lesson_ids_list syllabus_data

mutual

/-- Reference traversal: every lesson node of the tree, as an
`(hasContent, hasVideo, lessonId)` triple, in left-to-right document order,
at arbitrary nesting depth. -/
def lessonNodesOf : SyllabusEntry → List (Bool × Bool × String)
  | .lessonEntry hc hv i => [(hc, hv, i)]
  | .groupEntry ls => lessonNodesList ls
  | .otherEntry => []

/-- Document-order lesson nodes of a list of entries. -/
def lessonNodesList : List SyllabusEntry → List (Bool × Bool × String)
  | [] => []
  | e :: rest => lessonNodesOf e ++ lessonNodesList rest

end

/- ### Media metadata resolver: `get_media_download_links` (main.py:326-367) -/

/-- One encoded media file from the lesson-media payload: its `width` field
(quality proxy) and its `s3Url` download location. -/
structure MediaFile where
  width : Int
  s3Url : String
deriving Repr, DecidableEq

/-- The `...['video']['media']['media']['current']` object: the four video
track slots plus the audio file list. -/
structure CurrentMedia where
  primaryFiles : List MediaFile
  secondaryFiles : List MediaFile
  tertiaryFiles : List MediaFile
  quaternaryFiles : List MediaFile
  audioFiles : List MediaFile
deriving Repr, DecidableEq

/-- The parts of the `lesson_info['data'][0]` response that
`get_media_download_links` reads. -/
structure LessonInfo where
  hasContent : Bool
  hasVideo : Bool
  current : CurrentMedia
deriving Repr, DecidableEq

/-- The per-slot body of the `for key in [...]` loop (main.py:340-356): an
empty slot is skipped, a slot with exactly two variants is put in ascending
`width` order (`versions[::-1]` when `versions[0]['width'] > versions[1]['width']`)
and contributes the low-width URL under `DOWNLOAD_SD_VIDEO_FILES` and the
high-width URL under `DOWNLOAD_HD_VIDEO_FILES`; any other count raises. -/
def slot_media_urls (versions : List MediaFile) (dlSd dlHd : Bool) :
    Except String (List String) :=
  match versions with
  | [] => .ok []
  | [a, b] =>
    let lo := if a.width > b.width then b else a
    let hi := if a.width > b.width then a else b
    .ok ((if dlSd then [lo.s3Url] else []) ++ (if dlHd then [hi.s3Url] else []))
  | _ => .error "Unexpected number of video quality types found"

/-- `get_media_download_links` (main.py:326-367), with the module-level
download policy constants (`DOWNLOAD_SD_VIDEO_FILES`, `DOWNLOAD_HD_VIDEO_FILES`,
`DOWNLOAD_AUDIO_FILES`) passed explicitly.  If `hasContent is False or
hasVideo is False` the result is the empty list; otherwise the four video
slots are processed in fixed order (a `RuntimeError` from any slot
propagates), then audio file URLs are appended in payload order. -/
def get_media_download_links (info : LessonInfo) (dlSd dlHd dlAudio : Bool) :
    Except String (List String) :=
  if info.hasContent = false ∨ info.hasVideo = false then .ok [] else
  match slot_media_urls info.current.primaryFiles dlSd dlHd with
  | .error e => .error e
  | .ok u1 =>
  match slot_media_urls info.current.secondaryFiles dlSd dlHd with
  | .error e => .error e
  | .ok u2 =>
  match slot_media_urls info.current.tertiaryFiles dlSd dlHd with
  | .error e => .error e
  | .ok u3 =>
  match slot_media_urls info.current.quaternaryFiles dlSd dlHd with
  | .error e => .error e
  | .ok u4 =>
    .ok (u1 ++ u2 ++ u3 ++ u4 ++
      (if dlAudio then info.current.audioFiles.map (fun f => f.s3Url) else []))

/-- `download_lesson_basic_version` (main.py:316-323) up to the point where it
hands the URL list to the transfer step: an empty resolved list is reported as
`"No downloadable content found for lecture"`. -/
def download_lesson_basic_plan (info : LessonInfo) (dlSd dlHd dlAudio : Bool) :
    Except String (List String) :=
  match get_media_download_links info dlSd dlHd dlAudio with
  | .error e => .error e
  | .ok urls =>
    if urls.length = 0 then .error "No downloadable content found for lecture"
    else .ok urls

/- ### Orchestrator iteration: `download_lessons` (main.py:295-313) -/

/-- The iteration skeleton of `download_lessons`: for `lesson_index` in
`range(start_index, len(lesson_ids))`, the lesson `lesson_ids[lesson_index]`
is processed under the display label `f"Lecture {lesson_index + 1}"`. The
result lists the `(label, lesson_id)` pairs in processing order. -/
def download_lessons_plan (lesson_ids : List String) (start_index : Nat) :
    List (String × String) :=
  ((List.range lesson_ids.length).drop start_index).map
    (fun i => (s!"Lecture {i + 1}", lesson_ids.getD i ""))

/- ### URL classifier: `parse_url` (main.py:136-155) with the three regexes (main.py:28-30) -/

/-- Match a literal character sequence at the head of the input, returning the
remainder on success. -/
def matchLit : List Char → List Char → Option (List Char)
  | [], cs => some cs
  | _ :: _, [] => none
  | l :: ls, c :: cs => if c = l then matchLit ls cs else none

/-- Split at the first `/`: `some (a, b)` with `cs = a ++ '/' :: b` and no `/`
in `a`; `none` when the input has no `/`.  This is how a greedy `[^/]+`
followed by a literal `/` carves the input. -/
def splitFirstSlash : List Char → Option (List Char × List Char)
  | [] => none
  | c :: r =>
    if c = '/' then some ([], r)
    else (splitFirstSlash r).map (fun p => (c :: p.1, p.2))

/-- The characters of the anchored scheme+host literal `https://` in
`URL_REGEX = r"^(https://[^/]+)(/.*)$"`. -/
def HTTPS_LIT : List Char := ['h', 't', 't', 'p', 's', ':', '/', '/']

/-- How `(/.*)$` treats the characters after the first slash under Python
`re` semantics: `.` never matches a newline and `$` matches at the end of the
string or just before one final trailing newline.  Returns the matched group
body (the input with at most one trailing newline removed), or `none` when a
newline occurs anywhere else. -/
def stripPathNewline (l : List Char) : Option (List Char) :=
  if '\n' ∉ l then some l
  else if '\n' ∉ l.dropLast ∧ l.getLast? = some '\n' then some l.dropLast
  else none

/-- `re.search(URL_REGEX, url)` (main.py:28,137): on success, the pair of
capture groups `(base_url, path_url)`. -/
def matchUrlRegex (cs : List Char) : Option (List Char × List Char) :=
  match matchLit HTTPS_LIT cs with
  | none => none
  | some rest =>
    match splitFirstSlash rest with
    | none => none
    | some (host, afterSlash) =>
      if host = [] then none
      else
        match stripPathNewline afterSlash with
        | none => none
        | some body => some (HTTPS_LIT ++ host, '/' :: body)

/-- `re.search` for a path pattern of the shape `^{pre}([^/]+)/{after}` — the
common shape of `SECTION_PATH_URL_REGEX` and `LESSON_PATH_URL_REGEX`
(main.py:29-30).  Returns the captured id segment. -/
def matchPathRegex (pre after path : List Char) : Option (List Char) :=
  match matchLit pre path with
  | none => none
  | some rest =>
    match splitFirstSlash rest with
    | none => none
    | some (seg, tail2) =>
      if seg = [] then none
      else
        match matchLit after tail2 with
        | some _ => some seg
        | none => none

/-- The two URL target kinds `parse_url` distinguishes. -/
inductive UrlKind where
  | sectionPage
  | lessonPage
deriving Repr, DecidableEq

/-- The literal parts of `SECTION_PATH_URL_REGEX = r"^/section/([^/]+)/home"`. -/
def SECTION_PRE : List Char := ['/', 's', 'e', 'c', 't', 'i', 'o', 'n', '/']

/-- The trailing literal of the section path pattern (after the id's `/`). -/
def SECTION_SUF : List Char := ['h', 'o', 'm', 'e']

/-- The literal parts of `LESSON_PATH_URL_REGEX = r"^/lesson/([^/]+)/classroom"`. -/
def LESSON_PRE : List Char := ['/', 'l', 'e', 's', 's', 'o', 'n', '/']

/-- The trailing literal of the lesson path pattern (after the id's `/`). -/
def LESSON_SUF : List Char := ['c', 'l', 'a', 's', 's', 'r', 'o', 'o', 'm']

/-- `parse_url` (main.py:136-155): match `URL_REGEX`, then try the section
path shape and the lesson path shape on the path group; anything else raises
`ValueError("Invalid URL format")`. -/
def parse_url (url : String) : Except String (String × UrlKind × String) :=
  match matchUrlRegex url.data with
  | none => .error "Invalid URL format"
  | some (b, p) =>
    match matchPathRegex SECTION_PRE SECTION_SUF p with
    | some seg => .ok (String.mk b, .sectionPage, String.mk seg)
    | none =>
      match matchPathRegex LESSON_PRE LESSON_SUF p with
      | some seg => .ok (String.mk b, .lessonPage, String.mk seg)
      | none => .error "Invalid URL format"

/-- The set of URL strings on which `URL_REGEX` + `SECTION_PATH_URL_REGEX`
succeed with capture groups giving `base` and `id`: scheme `https://`, a
non-empty slash-free host, path starting `/section/{id}/home` with a
non-empty slash-free id, any remainder, at most one trailing newline, and no
other newline after the host. -/
def SectionUrlShape (url base id : String) : Prop :=
  ∃ (host seg rest nl : List Char),
    host ≠ [] ∧ '/' ∉ host ∧ seg ≠ [] ∧ '/' ∉ seg ∧
    '\n' ∉ seg ∧ '\n' ∉ rest ∧ (nl = [] ∨ nl = ['\n']) ∧
    base.data = HTTPS_LIT ++ host ∧ id.data = seg ∧
    url.data = HTTPS_LIT ++ host ++ SECTION_PRE ++ seg ++ '/' :: (SECTION_SUF ++ rest ++ nl)

/-- The analogous set for `LESSON_PATH_URL_REGEX`: path starting
`/lesson/{id}/classroom`. -/
def LessonUrlShape (url base id : String) : Prop :=
  ∃ (host seg rest nl : List Char),
    host ≠ [] ∧ '/' ∉ host ∧ seg ≠ [] ∧ '/' ∉ seg ∧
    '\n' ∉ seg ∧ '\n' ∉ rest ∧ (nl = [] ∨ nl = ['\n']) ∧
    base.data = HTTPS_LIT ++ host ∧ id.data = seg ∧
    url.data = HTTPS_LIT ++ host ++ LESSON_PRE ++ seg ++ '/' :: (LESSON_SUF ++ rest ++ nl)

/- ### Fallback extractor: `get_m3u8_download_links` (main.py:411-428) and
`M3U8_URL_REGEX = r'\\"uri\\":\\"(https:\\/\\/.*?\\/s[0-2]_(?:a|v|av).m3u8)\?'`
(main.py:36).  The regex is modelled by an executable backtracking matcher
with Python `re` semantics: `findall` scans left to right, takes the leftmost
match with a minimal (non-greedy) `.*?`, returns the capture group, and
resumes after the match. -/

/-- The trailing `.m3u8\?` of `M3U8_URL_REGEX` after the `(?:a|v|av)`
alternation: one arbitrary non-newline character (the unescaped `.`), the
literal `m3u8` (ending the capture group), then the literal `?` outside the
group.  Returns (characters inside the group, remainder after `?`). -/
def matchEnd1 (cs : List Char) : Option (List Char × List Char) :=
  match cs with
  | [] => none
  | c :: rest =>
    if c = '\n' then none else
    match matchLit ['m', '3', 'u', '8', '?'] rest with
    | some rest2 => some ([c, 'm', '3', 'u', '8'], rest2)
    | none => none

/-- First alternation branch `a` of `(?:a|v|av)`, followed by `matchEnd1`. -/
def branchA : List Char → Option (List Char × List Char)
  | [] => none
  | c :: r =>
    if c = 'a' then (matchEnd1 r).map (fun p => ('a' :: p.1, p.2)) else none

/-- Second alternation branch `v` of `(?:a|v|av)`, followed by `matchEnd1`. -/
def branchV : List Char → Option (List Char × List Char)
  | [] => none
  | c :: r =>
    if c = 'v' then (matchEnd1 r).map (fun p => ('v' :: p.1, p.2)) else none

/-- Third alternation branch `av` of `(?:a|v|av)`, followed by `matchEnd1`. -/
def branchAV : List Char → Option (List Char × List Char)
  | c1 :: c2 :: r =>
    if c1 = 'a' ∧ c2 = 'v' then (matchEnd1 r).map (fun p => ('a' :: 'v' :: p.1, p.2))
    else none
  | _ => none

/-- The `(?:a|v|av)` alternation followed by `matchEnd1`, with Python's
leftmost-branch-first backtracking: try `a`, then `v`, then `av`. -/
def matchAlt (cs : List Char) : Option (List Char × List Char) :=
  match branchA cs with
  | some p => some p
  | none =>
    match branchV cs with
    | some p => some p
    | none => branchAV cs

/-- The `\\/s[0-2]_` tail that ends the non-greedy scan: literal `\/s`, a
digit in `[0-2]`, `_`, then the alternation. -/
def matchSlashTail (cs : List Char) : Option (List Char × List Char) :=
  match cs with
  | '\\' :: '/' :: 's' :: d :: '_' :: r =>
    if d = '0' ∨ d = '1' ∨ d = '2' then
      (matchAlt r).map (fun p => ('\\' :: '/' :: 's' :: d :: '_' :: p.1, p.2))
    else none
  | _ => none

/-- The non-greedy `.*?` followed by `matchSlashTail`: at each position the
tail is tried first; on failure one more non-newline character is consumed. -/
def matchBody : List Char → Option (List Char × List Char)
  | [] => none
  | c :: r =>
    match matchSlashTail (c :: r) with
    | some p => some p
    | none =>
      if c = '\n' then none else (matchBody r).map (fun p => (c :: p.1, p.2))

/-- The literal `\"uri\":\"` that anchors each match. -/
def URI_LIT : List Char := ['\\', '"', 'u', 'r', 'i', '\\', '"', ':', '\\', '"']

/-- The literal escaped scheme `https:\/\/` that opens the capture group. -/
def HTTPS_ESC_LIT : List Char := ['h', 't', 't', 'p', 's', ':', '\\', '/', '\\', '/']

/-- One attempted match of `M3U8_URL_REGEX` at the current position: both
literals, then the non-greedy body.  Returns (capture group, remainder). -/
def matchUri (cs : List Char) : Option (List Char × List Char) :=
  match matchLit URI_LIT cs with
  | none => none
  | some cs1 =>
    match matchLit HTTPS_ESC_LIT cs1 with
    | none => none
    | some cs2 => (matchBody cs2).map (fun p => (HTTPS_ESC_LIT ++ p.1, p.2))

/-- The `re.findall` scan, fuelled for structural recursion (one unit of fuel
per starting position; a match always consumes at least one character, so
`cs.length` fuel completes the scan — see `findallFrom_fuel_irrelevant`). -/
def findallFrom : Nat → List Char → List (List Char)
  | 0, _ => []
  | fuel + 1, cs =>
    match matchUri cs with
    | some (g, rest) => g :: findallFrom fuel rest
    | none =>
      match cs with
      | [] => []
      | _ :: r => findallFrom fuel r

/-- `re.findall(M3U8_URL_REGEX, response.text)` (main.py:418). -/
def re_findall_m3u8 (text : String) : List String :=
  (findallFrom text.data.length text.data).map String.mk

/-- Python's `url.endswith(suffix)`. -/
def py_endswith (s suf : String) : Bool := decide (suf.data <:+ s.data)

/-- The filter predicate of main.py:419: keep only URIs naming an
audio+video combined stream. -/
def avFilter (u : String) : Bool := py_endswith u "_av.m3u8"

/-- Python's `url.replace("\\/", "/")`: replace every non-overlapping
occurrence of `\/`, scanning left to right. -/
def unescapeSlashes : List Char → List Char
  | [] => []
  | [c] => [c]
  | c1 :: c2 :: rest =>
    if c1 = '\\' ∧ c2 = '/' then '/' :: unescapeSlashes rest
    else c1 :: unescapeSlashes (c2 :: rest)

/-- The map step of main.py:424 on one URL. -/
def py_replace_escaped (u : String) : String := String.mk (unescapeSlashes u.data)

/-- Python's `str.split('/')` (always non-empty output). -/
def splitOnSlash : List Char → List (List Char)
  | [] => [[]]
  | '/' :: r => [] :: splitOnSlash r
  | c :: r =>
    match splitOnSlash r with
    | [] => [[c]]
    | seg :: rest => (c :: seg) :: rest

/-- The sort key of main.py:426: `url.split('/')[-1]`, the filename. -/
def fnameKey (u : String) : List Char := (splitOnSlash u.data).getLastD []

/-- Lexicographic `≤` on character lists by code point — how Python compares
the `str` sort keys. -/
def charListLe : List Char → List Char → Bool
  | [], _ => true
  | _ :: _, [] => false
  | a :: as, b :: bs => if a < b then true else if b < a then false else charListLe as bs

/-- The sort order of main.py:426: ascending by filename. -/
def fnameRel (u v : String) : Prop := charListLe (fnameKey u) (fnameKey v) = true

instance : DecidableRel fnameRel := fun _ _ => instDecidableEqBool _ _

/-- `urls_found.sort(key=lambda url: url.split('/')[-1])`: Python's sort is
stable, so it is modelled by stable insertion sort under `fnameRel`. -/
def py_sort_by_fname (l : List String) : List String := List.insertionSort fnameRel l

/-- The processing pipeline of `get_m3u8_download_links` (main.py:418-428)
applied to one duplicate-free ordering of the regex matches (the result of
`list(set(...))`): filter to combined streams, raise
`RuntimeError("No video URLs found")` if none survive, unescape `\/`, then
sort by filename. -/
def m3u8_postprocess (urls_found : List String) : Except String (List String) :=
  let filtered := urls_found.filter avFilter
  if filtered = [] then .error "No video URLs found"
  else .ok (py_sort_by_fname (filtered.map py_replace_escaped))

/-- `d` is a possible value of Python's `list(set(xs))`: duplicate-free, with
exactly the members of `xs`.  Python fixes no iteration order for a set of
strings (it varies with hash randomisation), so every such `d` is a possible
outcome. -/
def isDedupOf (d xs : List String) : Prop := d.Nodup ∧ ∀ u, u ∈ d ↔ u ∈ xs

/-- `get_m3u8_download_links` as a relation between the fetched page text and
a possible result, quantifying over the set iteration order. -/
def get_m3u8_runs (text : String) (r : Except String (List String)) : Prop :=
  ∃ d, isDedupOf d (re_findall_m3u8 text) ∧ r = m3u8_postprocess d

/-- One concrete run of `get_m3u8_download_links` (main.py:411-428), using the
first-kept duplicate-free ordering. -/
def get_m3u8_download_links (text : String) : Except String (List String) :=
  m3u8_postprocess (re_findall_m3u8 text).dedup

/- ### Orchestrator error propagation (main.py:158-182, 295-313, 402-408) -/

/-- The control flow of the `download_lessons` loop in experimental mode, fed
with the classroom page text of each lesson in order: each lesson is resolved
by `get_m3u8_download_links`; the first raised `RuntimeError` propagates out
of the loop (there is no per-lesson handler), so the trace of attempted
lessons ends at the first failure. -/
def download_lessons_trace (texts : List String) : List (Except String (List String)) :=
  match texts with
  | [] => []
  | t :: rest =>
    match get_m3u8_download_links t with
    | .error e => [.error e]
    | .ok urls => .ok urls :: download_lessons_trace rest

/- ### Helper lemmas: syllabus traversal -/

mutual

theorem extract_rec_eq_filterMap (e : SyllabusEntry) :
    extract_lesson_ids_recursive e =
      (lessonNodesOf e).filterMap (fun t => if t.1 && t.2.1 then some t.2.2 else none) := by
  cases e with
  | lessonEntry hc hv i =>
    cases hc <;> cases hv <;> simp [extract_lesson_ids_recursive, lessonNodesOf]
  | groupEntry ls =>
    simpa [extract_lesson_ids_recursive, lessonNodesOf] using extract_list_eq_filterMap ls
  | otherEntry => simp [extract_lesson_ids_recursive, lessonNodesOf]

theorem extract_list_eq_filterMap (l : List SyllabusEntry) :
    extract_lesson_ids_list l =
      (lessonNodesList l).filterMap (fun t => if t.1 && t.2.1 then some t.2.2 else none) := by
  cases l with
  | nil => simp [extract_lesson_ids_list, lessonNodesList]
  | cons e rest =>
    simp [extract_lesson_ids_list, lessonNodesList, List.filterMap_append,
      extract_rec_eq_filterMap e, extract_list_eq_filterMap rest]

end

/-- C1: for every syllabus document, `extract_lesson_ids` returns exactly the
lesson ids of the lesson nodes with `has_content` and `has_video` both true,
in left-to-right document order — groups (at any nesting depth) are recursed
into in original child order, and every other node kind contributes nothing
and is not an error (the traversal is total). -/
theorem c1_syllabus_resolver_document_order (entries : List SyllabusEntry) :
    extract_lesson_ids entries =
      (lessonNodesList entries).filterMap
        (fun t => if t.1 && t.2.1 then some t.2.2 else none) :=
  extract_list_eq_filterMap entries

/- ### Helper lemmas: media resolver -/

theorem slot_media_urls_error_iff (versions : List MediaFile) (dlSd dlHd : Bool) :
    slot_media_urls versions dlSd dlHd =
        .error "Unexpected number of video quality types found" ↔
      versions.length ≠ 0 ∧ versions.length ≠ 2 := by
  match versions with
  | [] => simp [slot_media_urls]
  | [a] => simp [slot_media_urls]
  | [a, b] => simp [slot_media_urls]
  | a :: b :: c :: t => simp [slot_media_urls]

theorem slot_media_urls_cases (versions : List MediaFile) (dlSd dlHd : Bool) :
    (∃ us, slot_media_urls versions dlSd dlHd = .ok us) ∨
      slot_media_urls versions dlSd dlHd =
        .error "Unexpected number of video quality types found" := by
  match versions with
  | [] => exact Or.inl ⟨[], rfl⟩
  | [a] => exact Or.inr rfl
  | [a, b] => exact Or.inl ⟨_, rfl⟩
  | a :: b :: c :: t => exact Or.inr rfl

/-- C2: every video track slot holding exactly two variants is ordered by
ascending `width` (`lo.width ≤ hi.width`, where `{lo, hi}` is the input
pair), contributing the low-width URL when SD download is on and the
high-width URL when HD download is on — this is the per-slot list each of
the four slots (primary, secondary, tertiary, quaternary) feeds through, and
the resolver concatenates exactly those per-slot contributions in slot
order, whatever each slot holds.  In particular for widths `[720, 1080]`
under the script's policy (`DOWNLOAD_HD_VIDEO_FILES = True`,
`DOWNLOAD_SD_VIDEO_FILES = False`) only the 1080-width URL is contributed,
for both input orders of the pair, in whichever of the four slots it sits. -/
theorem c2_pair_ordered_by_width :
    (∀ (a b : MediaFile) (dlSd dlHd : Bool), ∃ lo hi,
      ((lo = a ∧ hi = b) ∨ (lo = b ∧ hi = a)) ∧ lo.width ≤ hi.width ∧
      slot_media_urls [a, b] dlSd dlHd =
        .ok ((if dlSd then [lo.s3Url] else []) ++ (if dlHd then [hi.s3Url] else []))) ∧
    (∀ (info : LessonInfo) (dlSd dlHd dlAudio : Bool) (u1 u2 u3 u4 : List String),
      info.hasContent = true → info.hasVideo = true →
      slot_media_urls info.current.primaryFiles dlSd dlHd = .ok u1 →
      slot_media_urls info.current.secondaryFiles dlSd dlHd = .ok u2 →
      slot_media_urls info.current.tertiaryFiles dlSd dlHd = .ok u3 →
      slot_media_urls info.current.quaternaryFiles dlSd dlHd = .ok u4 →
      get_media_download_links info dlSd dlHd dlAudio =
        .ok (u1 ++ u2 ++ u3 ++ u4 ++
          (if dlAudio then info.current.audioFiles.map (fun f => f.s3Url) else []))) ∧
    (∀ u1 u2 : String,
      (get_media_download_links ⟨true, true, ⟨[⟨720, u1⟩, ⟨1080, u2⟩], [], [], [], []⟩⟩
          false true false = .ok [u2] ∧
       get_media_download_links ⟨true, true, ⟨[⟨1080, u2⟩, ⟨720, u1⟩], [], [], [], []⟩⟩
          false true false = .ok [u2]) ∧
      (get_media_download_links ⟨true, true, ⟨[], [⟨720, u1⟩, ⟨1080, u2⟩], [], [], []⟩⟩
          false true false = .ok [u2] ∧
       get_media_download_links ⟨true, true, ⟨[], [⟨1080, u2⟩, ⟨720, u1⟩], [], [], []⟩⟩
          false true false = .ok [u2]) ∧
      (get_media_download_links ⟨true, true, ⟨[], [], [⟨720, u1⟩, ⟨1080, u2⟩], [], []⟩⟩
          false true false = .ok [u2] ∧
       get_media_download_links ⟨true, true, ⟨[], [], [⟨1080, u2⟩, ⟨720, u1⟩], [], []⟩⟩
          false true false = .ok [u2]) ∧
      (get_media_download_links ⟨true, true, ⟨[], [], [], [⟨720, u1⟩, ⟨1080, u2⟩], []⟩⟩
          false true false = .ok [u2] ∧
       get_media_download_links ⟨true, true, ⟨[], [], [], [⟨1080, u2⟩, ⟨720, u1⟩], []⟩⟩
          false true false = .ok [u2])) := by
  refine ⟨?_, ?_, ?_⟩
  · intro a b dlSd dlHd
    by_cases h : a.width > b.width
    · refine ⟨b, a, Or.inr ⟨rfl, rfl⟩, le_of_lt h, ?_⟩
      simp [slot_media_urls, h]
    · refine ⟨a, b, Or.inl ⟨rfl, rfl⟩, not_lt.mp h, ?_⟩
      simp [slot_media_urls, h]
  · intro info dlSd dlHd dlAudio u1 u2 u3 u4 hc hv h1 h2 h3 h4
    unfold get_media_download_links
    rw [if_neg (by simp [hc, hv])]
    rw [h1]
    dsimp only
    rw [h2]
    dsimp only
    rw [h3]
    dsimp only
    rw [h4]
  · intro u1 u2
    exact ⟨⟨rfl, rfl⟩, ⟨rfl, rfl⟩, ⟨rfl, rfl⟩, ⟨rfl, rfl⟩⟩

/-- Closed instance of C2: a two-variant pair in the secondary slot
contributes its width-ordered URLs at the secondary position of the
resolver's concatenation. -/
theorem c2_witness :
    get_media_download_links ⟨true, true, ⟨[], [⟨720, "u"⟩, ⟨1080, "v"⟩], [], [], []⟩⟩
        true true false = .ok ["u", "v"] :=
  c2_pair_ordered_by_width.2.1 _ true true false [] ["u", "v"] [] []
    rfl rfl rfl rfl rfl rfl

/-- C6: with `hasContent`/`hasVideo` true, `get_media_download_links` raises
`"Unexpected number of video quality types found"` exactly when some video
track slot holds a variant count other than 0 or 2 (e.g. 1 or 3); it never
silently skips or reinterprets such a slot, while an all-empty payload (every
slot zero variants) is skipped without error. -/
theorem c6_bad_variant_count_is_error :
    (∀ (info : LessonInfo) (dlSd dlHd dlAudio : Bool),
      info.hasContent = true → info.hasVideo = true →
      (get_media_download_links info dlSd dlHd dlAudio =
          .error "Unexpected number of video quality types found" ↔
        ∃ vs ∈ [info.current.primaryFiles, info.current.secondaryFiles,
                info.current.tertiaryFiles, info.current.quaternaryFiles],
          vs.length ≠ 0 ∧ vs.length ≠ 2)) ∧
    (∀ dlSd dlHd dlAudio : Bool,
      get_media_download_links ⟨true, true, ⟨[], [], [], [], []⟩⟩ dlSd dlHd dlAudio =
        .ok []) := by
  constructor
  · intro info dlSd dlHd dlAudio hc hv
    have hchar : get_media_download_links info dlSd dlHd dlAudio =
        .error "Unexpected number of video quality types found" ↔
        (slot_media_urls info.current.primaryFiles dlSd dlHd =
            .error "Unexpected number of video quality types found" ∨
         slot_media_urls info.current.secondaryFiles dlSd dlHd =
            .error "Unexpected number of video quality types found" ∨
         slot_media_urls info.current.tertiaryFiles dlSd dlHd =
            .error "Unexpected number of video quality types found" ∨
         slot_media_urls info.current.quaternaryFiles dlSd dlHd =
            .error "Unexpected number of video quality types found") := by
      rcases slot_media_urls_cases info.current.primaryFiles dlSd dlHd with ⟨us1, e1⟩ | e1 <;>
      rcases slot_media_urls_cases info.current.secondaryFiles dlSd dlHd with ⟨us2, e2⟩ | e2 <;>
      rcases slot_media_urls_cases info.current.tertiaryFiles dlSd dlHd with ⟨us3, e3⟩ | e3 <;>
      rcases slot_media_urls_cases info.current.quaternaryFiles dlSd dlHd with ⟨us4, e4⟩ | e4 <;>
      simp [get_media_download_links, hc, hv, e1, e2, e3, e4]
    rw [hchar]
    constructor
    · rintro (h | h | h | h)
      · exact ⟨_, by simp, (slot_media_urls_error_iff _ _ _).mp h⟩
      · exact ⟨_, by simp, (slot_media_urls_error_iff _ _ _).mp h⟩
      · exact ⟨_, by simp, (slot_media_urls_error_iff _ _ _).mp h⟩
      · exact ⟨_, by simp, (slot_media_urls_error_iff _ _ _).mp h⟩
    · rintro ⟨vs, hmem, hbad⟩
      simp only [List.mem_cons, List.not_mem_nil, or_false] at hmem
      rcases hmem with h | h | h | h <;> subst h
      · exact Or.inl ((slot_media_urls_error_iff _ _ _).mpr hbad)
      · exact Or.inr (Or.inl ((slot_media_urls_error_iff _ _ _).mpr hbad))
      · exact Or.inr (Or.inr (Or.inl ((slot_media_urls_error_iff _ _ _).mpr hbad)))
      · exact Or.inr (Or.inr (Or.inr ((slot_media_urls_error_iff _ _ _).mpr hbad)))
  · intro dlSd dlHd dlAudio
    cases dlAudio <;> rfl

/-- Closed instance of C6: a primary slot holding a single variant makes the
resolver fail with the malformed-media error. -/
theorem c6_witness :
    get_media_download_links ⟨true, true, ⟨[⟨720, "u"⟩], [], [], [], []⟩⟩ true true false =
      .error "Unexpected number of video quality types found" :=
  (c6_bad_variant_count_is_error.1 _ true true false rfl rfl).mpr
    ⟨[⟨720, "u"⟩], by simp, by simp⟩

/-- C8: a lesson metadata response with `hasContent` or `hasVideo` false makes
`get_media_download_links` return the empty list without an error, and the
caller (`download_lesson_basic_version`) is the one that reports the
emptiness, as `"No downloadable content found for lecture"`. -/
theorem c8_flags_false_empty_not_error :
    ∀ (info : LessonInfo) (dlSd dlHd dlAudio : Bool),
      info.hasContent = false ∨ info.hasVideo = false →
      get_media_download_links info dlSd dlHd dlAudio = .ok [] ∧
      download_lesson_basic_plan info dlSd dlHd dlAudio =
        .error "No downloadable content found for lecture" := by
  intro info dlSd dlHd dlAudio h
  have h1 : get_media_download_links info dlSd dlHd dlAudio = .ok [] := by
    unfold get_media_download_links
    rw [if_pos h]
  refine ⟨h1, ?_⟩
  unfold download_lesson_basic_plan
  rw [h1]
  rfl

/-- Closed instance of C8: `hasContent = false` yields the empty list and the
caller's "nothing downloadable" report. -/
theorem c8_witness :
    get_media_download_links ⟨false, true, ⟨[⟨720, "u"⟩, ⟨1080, "v"⟩], [], [], [], []⟩⟩
        false true false = .ok [] ∧
    download_lesson_basic_plan ⟨false, true, ⟨[⟨720, "u"⟩, ⟨1080, "v"⟩], [], [], [], []⟩⟩
        false true false = .error "No downloadable content found for lecture" :=
  c8_flags_false_empty_not_error _ false true false (Or.inl rfl)

/-- C4: `download_lessons` over `n` lesson ids with `skip_count < n` processes
exactly the lessons at original 0-based indices `skip_count .. n-1`, in order,
labelling the lesson at original index `i` as `"Lecture {i+1}"` (pre-skip
position); in particular skipping 2 of 5 processes indices 2, 3, 4 labelled
"Lecture 3", "Lecture 4", "Lecture 5". -/
theorem c4_skip_count_window_and_labels :
    (∀ (ids : List String) (start : Nat), start ≤ ids.length →
      (download_lessons_plan ids start).length = ids.length - start ∧
      ∀ j, j < ids.length - start →
        (download_lessons_plan ids start).getD j ("", "") =
          (s!"Lecture {start + j + 1}", ids.getD (start + j) "")) ∧
    (∀ a b c d e : String, download_lessons_plan [a, b, c, d, e] 2 =
      [("Lecture 3", c), ("Lecture 4", d), ("Lecture 5", e)]) := by
  constructor
  · intro ids start hstart
    constructor
    · simp [download_lessons_plan]
    · intro j hj
      have hlt : start + j < ids.length := by omega
      simp [download_lessons_plan, List.getD_eq_getElem?_getD, List.getElem?_drop,
        List.getElem?_range hlt]
  · intro a b c d e
    have hred : download_lessons_plan [a, b, c, d, e] 2 =
        [(s!"Lecture {2 + 1}", c), (s!"Lecture {3 + 1}", d), (s!"Lecture {4 + 1}", e)] := rfl
    rw [hred, show (s!"Lecture {2 + 1}") = "Lecture 3" from by decide,
      show (s!"Lecture {3 + 1}") = "Lecture 4" from by decide,
      show (s!"Lecture {4 + 1}") = "Lecture 5" from by decide]

/-- Closed instance of C4: skipping 1 of 3 lessons leaves a 2-lesson window
whose first processed lesson is the second id, labelled "Lecture 2". -/
theorem c4_witness :
    (download_lessons_plan ["x", "y", "z"] 1).length = 2 ∧
    (download_lessons_plan ["x", "y", "z"] 1).getD 0 ("", "") = ("Lecture 2", "y") := by
  obtain ⟨hlen, hget⟩ := c4_skip_count_window_and_labels.1 ["x", "y", "z"] 1 (by decide)
  exact ⟨hlen, (hget 0 (by decide)).trans (by decide)⟩

/- ### Helper lemmas: URL classifier -/

theorem matchLit_append (l r : List Char) : matchLit l (l ++ r) = some r := by
  induction l with
  | nil => rfl
  | cons c ls ih => simp [matchLit, ih]

theorem matchLit_some_eq : ∀ {l cs r : List Char}, matchLit l cs = some r → cs = l ++ r := by
  intro l
  induction l with
  | nil =>
    intro cs r h
    simp only [matchLit, Option.some.injEq] at h
    simp [h]
  | cons c ls ih =>
    intro cs r h
    cases cs with
    | nil => simp [matchLit] at h
    | cons x xs =>
      simp only [matchLit] at h
      split at h
      · next hx =>
        subst hx
        rw [ih h]
        rfl
      · exact absurd h (by simp)

theorem splitFirstSlash_eq : ∀ {cs a b : List Char},
    splitFirstSlash cs = some (a, b) → cs = a ++ '/' :: b ∧ '/' ∉ a := by
  intro cs
  induction cs with
  | nil => intro a b h; simp [splitFirstSlash] at h
  | cons c r ih =>
    intro a b h
    simp only [splitFirstSlash] at h
    split at h
    · next hc =>
      subst hc
      simp only [Option.some.injEq, Prod.mk.injEq] at h
      obtain ⟨h1, h2⟩ := h
      subst h1; subst h2
      simp
    · next hc =>
      rw [Option.map_eq_some'] at h
      obtain ⟨⟨a', b'⟩, hp, heq⟩ := h
      simp only [Prod.mk.injEq] at heq
      obtain ⟨h1, h2⟩ := heq
      subst h1; subst h2
      obtain ⟨hcs, hna⟩ := ih hp
      subst hcs
      refine ⟨rfl, ?_⟩
      intro hmem
      rcases List.mem_cons.mp hmem with h1 | h1
      · exact hc h1.symm
      · exact hna h1

theorem splitFirstSlash_append {a : List Char} (ha : '/' ∉ a) (b : List Char) :
    splitFirstSlash (a ++ '/' :: b) = some (a, b) := by
  induction a with
  | nil => simp [splitFirstSlash]
  | cons c t ih =>
    rw [List.mem_cons, not_or] at ha
    obtain ⟨hc, ht⟩ := ha
    simp only [List.cons_append, splitFirstSlash, List.append_eq]
    rw [if_neg (fun h => hc h.symm), ih ht]
    rfl

theorem stripPathNewline_some {l body : List Char} (h : stripPathNewline l = some body) :
    '\n' ∉ body ∧ (l = body ∨ l = body ++ ['\n']) := by
  unfold stripPathNewline at h
  split at h
  · next hnin =>
    obtain rfl := Option.some.inj h
    exact ⟨hnin, Or.inl rfl⟩
  · next hnin =>
    split at h
    · next hcond =>
      obtain ⟨hdrop, hlast⟩ := hcond
      obtain rfl := Option.some.inj h
      rcases List.eq_nil_or_concat l with rfl | ⟨l', x, rfl⟩
      · simp at hlast
      · simp only [List.concat_eq_append] at hdrop hlast ⊢
        rw [List.getLast?_concat] at hlast
        obtain rfl := Option.some.inj hlast
        rw [List.dropLast_concat] at hdrop
        rw [List.dropLast_concat]
        exact ⟨hdrop, Or.inr rfl⟩
    · exact absurd h (by simp)

theorem stripPathNewline_clean {body : List Char} (hb : '\n' ∉ body) :
    stripPathNewline body = some body := by
  unfold stripPathNewline
  rw [if_pos hb]

theorem stripPathNewline_trailing {body : List Char} (hb : '\n' ∉ body) :
    stripPathNewline (body ++ ['\n']) = some body := by
  unfold stripPathNewline
  rw [if_neg (by simp), if_pos ⟨by simpa [List.dropLast_concat] using hb,
    by simp [List.getLast?_concat]⟩]
  rw [List.dropLast_concat]

theorem matchPathRegex_some_iff {pre suf path seg : List Char} :
    matchPathRegex pre suf path = some seg ↔
      seg ≠ [] ∧ '/' ∉ seg ∧ ∃ rest, path = pre ++ seg ++ '/' :: (suf ++ rest) := by
  constructor
  · intro h
    unfold matchPathRegex at h
    rcases hm1 : matchLit pre path with _ | rest1 <;> rw [hm1] at h <;> dsimp only at h
    · simp at h
    rcases hm2 : splitFirstSlash rest1 with _ | ⟨seg', tail2⟩ <;> rw [hm2] at h <;>
      dsimp only at h
    · simp at h
    split at h
    · simp at h
    next hne =>
    rcases hm3 : matchLit suf tail2 with _ | rest3 <;> rw [hm3] at h <;> dsimp only at h
    · simp at h
    obtain rfl := Option.some.inj h
    obtain ⟨hr1, hdiv⟩ := splitFirstSlash_eq hm2
    refine ⟨hne, hdiv, rest3, ?_⟩
    rw [matchLit_some_eq hm1, hr1, matchLit_some_eq hm3]
    simp [List.append_assoc]
  · rintro ⟨hne, hdiv, rest, rfl⟩
    have hassoc : pre ++ seg ++ '/' :: (suf ++ rest) = pre ++ (seg ++ '/' :: (suf ++ rest)) := by
      simp [List.append_assoc]
    unfold matchPathRegex
    rw [hassoc, matchLit_append]
    dsimp only
    rw [splitFirstSlash_append hdiv]
    dsimp only
    rw [if_neg hne, matchLit_append]

theorem matchUrlRegex_some_iff {cs b p : List Char} :
    matchUrlRegex cs = some (b, p) ↔
      ∃ host body nl, host ≠ [] ∧ '/' ∉ host ∧ '\n' ∉ body ∧ (nl = [] ∨ nl = ['\n']) ∧
        b = HTTPS_LIT ++ host ∧ p = '/' :: body ∧
        cs = HTTPS_LIT ++ host ++ '/' :: (body ++ nl) := by
  constructor
  · intro h
    unfold matchUrlRegex at h
    rcases hm1 : matchLit HTTPS_LIT cs with _ | rest1 <;> rw [hm1] at h <;> dsimp only at h
    · simp at h
    rcases hm2 : splitFirstSlash rest1 with _ | ⟨host, afterSlash⟩ <;> rw [hm2] at h <;>
      dsimp only at h
    · simp at h
    split at h
    · simp at h
    next hhost =>
    rcases hm3 : stripPathNewline afterSlash with _ | body <;> rw [hm3] at h <;> dsimp only at h
    · simp at h
    simp only [Option.some.injEq, Prod.mk.injEq] at h
    obtain ⟨hb, hp⟩ := h
    obtain ⟨hr1, hdiv⟩ := splitFirstSlash_eq hm2
    obtain ⟨hclean, hcase⟩ := stripPathNewline_some hm3
    have hcs := matchLit_some_eq hm1
    rcases hcase with rfl | hEq
    · exact ⟨host, afterSlash, [], hhost, hdiv, hclean, Or.inl rfl, hb.symm, hp.symm,
        by rw [hcs, hr1]; simp [List.append_assoc]⟩
    · exact ⟨host, body, ['\n'], hhost, hdiv, hclean, Or.inr rfl, hb.symm, hp.symm,
        by rw [hcs, hr1, hEq]; simp [List.append_assoc]⟩
  · rintro ⟨host, body, nl, hhost, hslash, hclean, hnl, rfl, rfl, rfl⟩
    have hassoc : HTTPS_LIT ++ host ++ '/' :: (body ++ nl) =
        HTTPS_LIT ++ (host ++ '/' :: (body ++ nl)) := by
      simp [List.append_assoc]
    unfold matchUrlRegex
    rw [hassoc, matchLit_append]
    dsimp only
    rw [splitFirstSlash_append hslash]
    dsimp only
    rw [if_neg hhost]
    rcases hnl with rfl | rfl
    · rw [List.append_nil, stripPathNewline_clean hclean]
    · rw [stripPathNewline_trailing hclean]

theorem parse_url_error_eq {url e : String} (h : parse_url url = .error e) :
    e = "Invalid URL format" := by
  unfold parse_url at h
  rcases hm1 : matchUrlRegex url.data with _ | ⟨b, p⟩ <;> rw [hm1] at h <;> dsimp only at h
  · exact (Except.error.inj h).symm
  rcases hm2 : matchPathRegex SECTION_PRE SECTION_SUF p with _ | seg <;> rw [hm2] at h <;>
    dsimp only at h
  · rcases hm3 : matchPathRegex LESSON_PRE LESSON_SUF p with _ | seg <;> rw [hm3] at h <;>
      dsimp only at h
    · exact (Except.error.inj h).symm
    · simp at h
  · simp at h

theorem matchPathRegex_section_of_lesson {p seg : List Char}
    (h : matchPathRegex LESSON_PRE LESSON_SUF p = some seg) :
    matchPathRegex SECTION_PRE SECTION_SUF p = none := by
  obtain ⟨hne, hdiv, rest, rfl⟩ := matchPathRegex_some_iff.mp h
  rcases hq : matchPathRegex SECTION_PRE SECTION_SUF
      (LESSON_PRE ++ seg ++ '/' :: (LESSON_SUF ++ rest)) with _ | seg2
  · exact hq
  · exfalso
    obtain ⟨_, _, rest2, heq⟩ := matchPathRegex_some_iff.mp hq
    rw [SECTION_PRE, LESSON_PRE] at heq
    simp [List.cons_append] at heq

theorem parse_url_sectionPage_iff (url base id : String) :
    parse_url url = .ok (base, .sectionPage, id) ↔ SectionUrlShape url base id := by
  constructor
  · intro h
    unfold parse_url at h
    rcases hm1 : matchUrlRegex url.data with _ | ⟨b, p⟩ <;> rw [hm1] at h <;> dsimp only at h
    · simp at h
    rcases hm2 : matchPathRegex SECTION_PRE SECTION_SUF p with _ | seg <;> rw [hm2] at h <;>
      dsimp only at h
    · rcases hm3 : matchPathRegex LESSON_PRE LESSON_SUF p with _ | seg <;> rw [hm3] at h <;>
        dsimp only at h
      · simp at h
      · simp at h
    · simp only [Except.ok.injEq, Prod.mk.injEq] at h
      obtain ⟨hb, _, hi⟩ := h
      obtain ⟨host, body, nl, hhost, hdiv, hclean, hnl, hbeq, hpeq, hcs⟩ :=
        matchUrlRegex_some_iff.mp hm1
      obtain ⟨hne, hsegdiv, rest, hpath⟩ := matchPathRegex_some_iff.mp hm2
      have hbody : body = ['s', 'e', 'c', 't', 'i', 'o', 'n', '/'] ++ seg ++
          '/' :: (SECTION_SUF ++ rest) := by
        have hx := hpeq.symm.trans hpath
        rw [SECTION_PRE] at hx
        simpa [List.cons_append] using hx
      refine ⟨host, seg, rest, nl, hhost, hdiv, hne, hsegdiv, ?_, ?_, hnl, ?_, ?_, ?_⟩
      · intro hm
        exact hclean (by rw [hbody]; simp [hm])
      · intro hm
        exact hclean (by rw [hbody]; simp [hm])
      · rw [← hb]
        exact hbeq
      · rw [← hi]
      · rw [hcs, hbody, SECTION_PRE]
        simp [List.append_assoc, List.cons_append]
  · intro hshape
    obtain ⟨bdata⟩ := base
    obtain ⟨idata⟩ := id
    obtain ⟨host, idata, rest, nl, hhost, hdiv, hne, hidatadiv, hnidata, hnrest, hnl, hbase, hid,
      hurl⟩ := hshape
    simp only at hbase hid
    subst hbase
    subst hid
    have hnb : '\n' ∉ (['s', 'e', 'c', 't', 'i', 'o', 'n', '/'] ++ idata ++
        '/' :: (SECTION_SUF ++ rest)) := by
      simp [SECTION_SUF]
      exact ⟨hnidata, hnrest⟩
    have hmA : matchUrlRegex url.data =
        some (HTTPS_LIT ++ host, '/' :: (['s', 'e', 'c', 't', 'i', 'o', 'n', '/'] ++ idata ++
          '/' :: (SECTION_SUF ++ rest))) := by
      refine matchUrlRegex_some_iff.mpr ⟨host, _, nl, hhost, hdiv, hnb, hnl, rfl, rfl, ?_⟩
      rw [hurl, SECTION_PRE]
      simp [List.append_assoc, List.cons_append]
    have hmB : matchPathRegex SECTION_PRE SECTION_SUF
        ('/' :: (['s', 'e', 'c', 't', 'i', 'o', 'n', '/'] ++ idata ++
          '/' :: (SECTION_SUF ++ rest))) = some idata := by
      refine matchPathRegex_some_iff.mpr ⟨hne, hidatadiv, rest, ?_⟩
      rw [SECTION_PRE]
      simp [List.append_assoc, List.cons_append]
    unfold parse_url
    rw [hmA]
    dsimp only
    rw [hmB]

theorem parse_url_lessonPage_iff (url base id : String) :
    parse_url url = .ok (base, .lessonPage, id) ↔ LessonUrlShape url base id := by
  constructor
  · intro h
    unfold parse_url at h
    rcases hm1 : matchUrlRegex url.data with _ | ⟨b, p⟩ <;> rw [hm1] at h <;> dsimp only at h
    · simp at h
    rcases hm2 : matchPathRegex SECTION_PRE SECTION_SUF p with _ | seg <;> rw [hm2] at h <;>
      dsimp only at h
    · rcases hm3 : matchPathRegex LESSON_PRE LESSON_SUF p with _ | seg <;> rw [hm3] at h <;>
        dsimp only at h
      · simp at h
      · simp only [Except.ok.injEq, Prod.mk.injEq] at h
        obtain ⟨hb, _, hi⟩ := h
        obtain ⟨host, body, nl, hhost, hdiv, hclean, hnl, hbeq, hpeq, hcs⟩ :=
          matchUrlRegex_some_iff.mp hm1
        obtain ⟨hne, hsegdiv, rest, hpath⟩ := matchPathRegex_some_iff.mp hm3
        have hbody : body = ['l', 'e', 's', 's', 'o', 'n', '/'] ++ seg ++
            '/' :: (LESSON_SUF ++ rest) := by
          have hx := hpeq.symm.trans hpath
          rw [LESSON_PRE] at hx
          simpa [List.cons_append] using hx
        refine ⟨host, seg, rest, nl, hhost, hdiv, hne, hsegdiv, ?_, ?_, hnl, ?_, ?_, ?_⟩
        · intro hm
          exact hclean (by rw [hbody]; simp [hm])
        · intro hm
          exact hclean (by rw [hbody]; simp [hm])
        · rw [← hb]
          exact hbeq
        · rw [← hi]
        · rw [hcs, hbody, LESSON_PRE]
          simp [List.append_assoc, List.cons_append]
    · simp at h
  · intro hshape
    obtain ⟨bdata⟩ := base
    obtain ⟨idata⟩ := id
    obtain ⟨host, idata, rest, nl, hhost, hdiv, hne, hidatadiv, hnidata, hnrest, hnl, hbase, hid,
      hurl⟩ := hshape
    simp only at hbase hid
    subst hbase
    subst hid
    have hnb : '\n' ∉ (['l', 'e', 's', 's', 'o', 'n', '/'] ++ idata ++
        '/' :: (LESSON_SUF ++ rest)) := by
      simp [LESSON_SUF]
      exact ⟨hnidata, hnrest⟩
    have hmA : matchUrlRegex url.data =
        some (HTTPS_LIT ++ host, '/' :: (['l', 'e', 's', 's', 'o', 'n', '/'] ++ idata ++
          '/' :: (LESSON_SUF ++ rest))) := by
      refine matchUrlRegex_some_iff.mpr ⟨host, _, nl, hhost, hdiv, hnb, hnl, rfl, rfl, ?_⟩
      rw [hurl, LESSON_PRE]
      simp [List.append_assoc, List.cons_append]
    have hmB : matchPathRegex LESSON_PRE LESSON_SUF
        ('/' :: (['l', 'e', 's', 's', 'o', 'n', '/'] ++ idata ++
          '/' :: (LESSON_SUF ++ rest))) = some idata := by
      refine matchPathRegex_some_iff.mpr ⟨hne, hidatadiv, rest, ?_⟩
      rw [LESSON_PRE]
      simp [List.append_assoc, List.cons_append]
    unfold parse_url
    rw [hmA]
    dsimp only
    rw [matchPathRegex_section_of_lesson hmB]
    dsimp only
    rw [hmB]

/-- C5: `parse_url` returns the section target (with the base URL and the id
captured verbatim) exactly on URLs matching the section shape
`https://{host}/section/{id}/home...`, the lesson target exactly on URLs
matching the lesson shape `https://{host}/lesson/{id}/classroom...`, and
fails with `ValueError("Invalid URL format")` on every other URL, including
those whose `https://{host}/` origin cannot be parsed. -/
theorem c5_url_classifier :
    (∀ url base id, parse_url url = .ok (base, .sectionPage, id) ↔
      SectionUrlShape url base id) ∧
    (∀ url base id, parse_url url = .ok (base, .lessonPage, id) ↔
      LessonUrlShape url base id) ∧
    (∀ url, (∀ base id, ¬ SectionUrlShape url base id) →
      (∀ base id, ¬ LessonUrlShape url base id) →
      parse_url url = .error "Invalid URL format") := by
  refine ⟨parse_url_sectionPage_iff, parse_url_lessonPage_iff, ?_⟩
  intro url hs hl
  rcases hr : parse_url url with e | ⟨b, k, i⟩
  · rw [parse_url_error_eq hr]
  · cases k with
    | sectionPage => exact absurd ((parse_url_sectionPage_iff url b i).mp hr) (hs b i)
    | lessonPage => exact absurd ((parse_url_lessonPage_iff url b i).mp hr) (hl b i)

/-- Closed instance of C5: a well-formed section URL is classified with its
origin and verbatim id, and a shapeless string is rejected. -/
theorem c5_witness :
    parse_url "https://e.au/section/abc/home" = .ok ("https://e.au", .sectionPage, "abc") ∧
    parse_url "x" = .error "Invalid URL format" := by
  constructor
  · exact (c5_url_classifier.1 _ _ _).mpr
      ⟨['e', '.', 'a', 'u'], ['a', 'b', 'c'], [], [], by decide, by decide, by decide,
        by decide, by decide, by decide, Or.inl rfl, by decide, by decide, by decide⟩
  · refine c5_url_classifier.2.2 "x" ?_ ?_
    · rintro b i ⟨host, seg, rest, nl, _, _, _, _, _, _, _, _, _, hurl⟩
      have h1 : ("x".data).length = 1 := rfl
      rw [hurl] at h1
      simp [HTTPS_LIT, SECTION_PRE, SECTION_SUF, List.length_append] at h1
    · rintro b i ⟨host, seg, rest, nl, _, _, _, _, _, _, _, _, _, hurl⟩
      have h1 : ("x".data).length = 1 := rfl
      rw [hurl] at h1
      simp [HTTPS_LIT, LESSON_PRE, LESSON_SUF, List.length_append] at h1

/- ### Helper lemmas: filename ordering and the set-order-independent pipeline -/

theorem charListLe_total : ∀ a b : List Char, charListLe a b = true ∨ charListLe b a = true := by
  intro a
  induction a with
  | nil => intro b; exact Or.inl rfl
  | cons x xs ih =>
    intro b
    cases b with
    | nil => exact Or.inr rfl
    | cons y ys =>
      rcases lt_trichotomy x y with h | h | h
      · left
        simp [charListLe, h]
      · subst h
        rcases ih ys with h2 | h2
        · left
          simp [charListLe, lt_self_iff_false, h2]
        · right
          simp [charListLe, lt_self_iff_false, h2]
      · right
        simp [charListLe, h]

theorem charListLe_trans : ∀ a b c : List Char, charListLe a b = true →
    charListLe b c = true → charListLe a c = true := by
  intro a
  induction a with
  | nil => intro b c _ _; rfl
  | cons x xs ih =>
    intro b c hab hbc
    cases b with
    | nil => simp [charListLe] at hab
    | cons y ys =>
      cases c with
      | nil => simp [charListLe] at hbc
      | cons z zs =>
        simp only [charListLe] at hab hbc ⊢
        rcases lt_trichotomy x y with h1 | h1 | h1
        · rcases lt_trichotomy y z with h2 | h2 | h2
          · simp [h1.trans h2]
          · subst h2
            simp [h1]
          · rw [if_neg (lt_asymm h2), if_pos h2] at hbc
            simp at hbc
        · subst h1
          rw [if_neg (lt_irrefl x), if_neg (lt_irrefl x)] at hab
          rcases lt_trichotomy x z with h2 | h2 | h2
          · simp [h2]
          · subst h2
            rw [if_neg (lt_irrefl x), if_neg (lt_irrefl x)] at hbc ⊢
            exact ih ys zs hab hbc
          · rw [if_neg (lt_asymm h2), if_pos h2] at hbc
            simp at hbc
        · rw [if_neg (lt_asymm h1), if_pos h1] at hab
          simp at hab

theorem charListLe_antisymm : ∀ a b : List Char, charListLe a b = true →
    charListLe b a = true → a = b := by
  intro a
  induction a with
  | nil =>
    intro b _ hba
    cases b with
    | nil => rfl
    | cons y ys => simp [charListLe] at hba
  | cons x xs ih =>
    intro b hab hba
    cases b with
    | nil => simp [charListLe] at hab
    | cons y ys =>
      rcases lt_trichotomy x y with h | h | h
      · rw [charListLe, if_neg (lt_asymm h), if_pos h] at hba
        simp at hba
      · subst h
        rw [charListLe, if_neg (lt_irrefl x), if_neg (lt_irrefl x)] at hab
        rw [charListLe, if_neg (lt_irrefl x), if_neg (lt_irrefl x)] at hba
        rw [ih ys hab hba]
      · rw [charListLe, if_neg (lt_asymm h), if_pos h] at hab
        simp at hab

instance : IsTotal String fnameRel :=
  ⟨fun u v => charListLe_total (fnameKey u) (fnameKey v)⟩

instance : IsTrans String fnameRel :=
  ⟨fun _ _ _ h1 h2 => charListLe_trans _ _ _ h1 h2⟩

theorem sorted_perm_eq_of_nodup_keys :
    ∀ (l1 l2 : List String), l1.Perm l2 → l1.Sorted fnameRel → l2.Sorted fnameRel →
      (l1.map fnameKey).Nodup → l1 = l2 := by
  intro l1
  induction l1 with
  | nil =>
    intro l2 hp _ _ _
    exact hp.symm.eq_nil.symm
  | cons a t1 ih =>
    intro l2 hp hs1 hs2 hnd
    cases l2 with
    | nil =>
      have := hp.eq_nil
      simp at this
    | cons b t2 =>
      have hbmem : b ∈ a :: t1 := hp.mem_iff.mpr (List.mem_cons_self b t2)
      have hamem : a ∈ b :: t2 := hp.mem_iff.mp (List.mem_cons_self a t1)
      have hab : a = b := by
        rcases List.mem_cons.mp hbmem with h | hbt
        · exact h.symm
        rcases List.mem_cons.mp hamem with h | hat
        · exact h
        have h1 : fnameRel a b := (List.sorted_cons.mp hs1).1 b hbt
        have h2 : fnameRel b a := (List.sorted_cons.mp hs2).1 a hat
        have hk : fnameKey a = fnameKey b := charListLe_antisymm _ _ h1 h2
        exfalso
        have hmem2 : fnameKey b ∈ t1.map fnameKey := List.mem_map_of_mem _ hbt
        rw [← hk] at hmem2
        exact (List.nodup_cons.mp hnd).1 hmem2
      subst hab
      have ht : t1.Perm t2 := hp.cons_inv
      rw [ih t2 ht (List.sorted_cons.mp hs1).2 (List.sorted_cons.mp hs2).2
        (List.nodup_cons.mp hnd).2]

theorem get_m3u8_runs_self (text : String) :
    get_m3u8_runs text (get_m3u8_download_links text) :=
  ⟨(re_findall_m3u8 text).dedup, ⟨List.nodup_dedup _, fun _ => List.mem_dedup⟩, rfl⟩

theorem dedup_filter_perm {text : String} {d : List String}
    (hd : isDedupOf d (re_findall_m3u8 text)) :
    (d.filter avFilter).Perm ((re_findall_m3u8 text).dedup.filter avFilter) := by
  obtain ⟨hnd, hmem⟩ := hd
  apply (List.perm_ext_iff_of_nodup (hnd.filter _) ((List.nodup_dedup _).filter _)).mpr
  intro u
  simp only [List.mem_filter, List.mem_dedup]
  rw [hmem u]

theorem m3u8_postprocess_perm_eq {d1 d2 : List String}
    (hperm : (d1.filter avFilter).Perm (d2.filter avFilter))
    (hkeys : (((d2.filter avFilter).map py_replace_escaped).map fnameKey).Nodup) :
    m3u8_postprocess d1 = m3u8_postprocess d2 := by
  simp only [m3u8_postprocess]
  by_cases hemp : d2.filter avFilter = []
  · have h1 : d1.filter avFilter = [] := by
      rw [hemp] at hperm
      exact hperm.eq_nil
    rw [h1, hemp]
  · have h1 : d1.filter avFilter ≠ [] := by
      intro h
      rw [h] at hperm
      exact hemp hperm.symm.eq_nil
    rw [if_neg h1, if_neg hemp]
    have hperm2 : (py_sort_by_fname ((d1.filter avFilter).map py_replace_escaped)).Perm
        (py_sort_by_fname ((d2.filter avFilter).map py_replace_escaped)) :=
      (List.perm_insertionSort _ _).trans
        ((hperm.map _).trans (List.perm_insertionSort _ _).symm)
    have hnd1 : ((py_sort_by_fname ((d1.filter avFilter).map py_replace_escaped)).map
        fnameKey).Nodup := by
      refine (List.Perm.nodup_iff ?_).mpr hkeys
      exact ((List.perm_insertionSort _ _).trans (hperm.map _)).map _
    rw [sorted_perm_eq_of_nodup_keys _ _ hperm2 (List.sorted_insertionSort fnameRel _)
      (List.sorted_insertionSort fnameRel _) hnd1]

theorem m3u8_runs_unique (text : String)
    (hkeys : ((((re_findall_m3u8 text).dedup.filter avFilter).map py_replace_escaped).map
        fnameKey).Nodup) :
    ∀ r1 r2, get_m3u8_runs text r1 → get_m3u8_runs text r2 → r1 = r2 := by
  have key : ∀ r, get_m3u8_runs text r → r = get_m3u8_download_links text := by
    rintro r ⟨d, hd, rfl⟩
    exact m3u8_postprocess_perm_eq (dedup_filter_perm hd) hkeys
  intro r1 r2 h1 h2
  rw [key r1 h1, key r2 h2]

/- ### C3 / C9 / C10 / C7 concrete page texts -/

/-- Markup with duplicate matches for one combined URI (`s2_av`), one
video-only (`s1_v`) and one audio-only (`s1_a`) variant, and a second
combined URI (`s1_av`) appearing after `s2_av`. -/
def C3_TEXT : String :=
  "\\\"uri\\\":\\\"https:\\/\\/h\\/p\\/s2_av.m3u8?" ++
  "\\\"uri\\\":\\\"https:\\/\\/h\\/p\\/s2_av.m3u8?" ++
  "\\\"uri\\\":\\\"https:\\/\\/h\\/p\\/s1_v.m3u8?" ++
  "\\\"uri\\\":\\\"https:\\/\\/h\\/p\\/s1_a.m3u8?" ++
  "\\\"uri\\\":\\\"https:\\/\\/h\\/p\\/s1_av.m3u8?"

set_option maxRecDepth 100000 in
/-- C3: on every run of the fallback extractor, the result is an error
(`"No video URLs found"`) exactly when no regex match survives the
combined-stream filter; a successful result is sorted ascending by filename
and is, as a multiset, exactly the duplicate-free filtered matches with `\/`
unescaped.  On the claim's concrete markup (duplicates, one video-only, one
audio-only, combined `s2_av` before `s1_av`) every run returns exactly
`[.../s1_av.m3u8, .../s2_av.m3u8]` in that order. -/
theorem c3_fallback_extractor_contract :
    (∀ text r, get_m3u8_runs text r →
      ((r = .error "No video URLs found" ↔
          (re_findall_m3u8 text).filter avFilter = []) ∧
       ∀ urls, r = .ok urls →
         urls.Sorted fnameRel ∧
         urls.Perm (((re_findall_m3u8 text).dedup.filter avFilter).map py_replace_escaped))) ∧
    (∀ r, get_m3u8_runs C3_TEXT r →
      r = .ok ["https://h/p/s1_av.m3u8", "https://h/p/s2_av.m3u8"]) := by
  constructor
  · rintro text r ⟨d, hd, rfl⟩
    obtain ⟨hnd, hmem⟩ := hd
    constructor
    · simp only [m3u8_postprocess]
      by_cases hemp : d.filter avFilter = []
      · rw [if_pos hemp]
        constructor
        · intro _
          rw [List.eq_nil_iff_forall_not_mem]
          intro u hu
          rw [List.mem_filter] at hu
          have hribbon : u ∈ d.filter avFilter :=
            List.mem_filter.mpr ⟨(hmem u).mpr hu.1, hu.2⟩
          rw [hemp] at hribbon
          simp at hribbon
        · intro _
          rfl
      · rw [if_neg hemp]
        constructor
        · intro h
          simp at h
        · intro hfil
          exfalso
          apply hemp
          rw [List.eq_nil_iff_forall_not_mem]
          intro u hu
          rw [List.mem_filter] at hu
          have hribbon : u ∈ (re_findall_m3u8 text).filter avFilter :=
            List.mem_filter.mpr ⟨(hmem u).mp hu.1, hu.2⟩
          rw [hfil] at hribbon
          simp at hribbon
    · intro urls hurls
      simp only [m3u8_postprocess] at hurls
      by_cases hemp : d.filter avFilter = []
      · rw [if_pos hemp] at hurls
        simp at hurls
      · rw [if_neg hemp] at hurls
        have hs := Except.ok.inj hurls
        subst hs
        constructor
        · exact List.sorted_insertionSort fnameRel _
        · exact (List.perm_insertionSort _ _).trans ((dedup_filter_perm ⟨hnd, hmem⟩).map _)
  · intro r hr
    have hkeys : ((((re_findall_m3u8 C3_TEXT).dedup.filter avFilter).map
        py_replace_escaped).map fnameKey).Nodup := by decide
    rw [m3u8_runs_unique C3_TEXT hkeys r (get_m3u8_download_links C3_TEXT) hr
      (get_m3u8_runs_self C3_TEXT)]
    rfl

/-- Closed instance of C3: the deterministic run on the claim's markup. -/
theorem c3_witness :
    get_m3u8_download_links C3_TEXT =
      .ok ["https://h/p/s1_av.m3u8", "https://h/p/s2_av.m3u8"] :=
  c3_fallback_extractor_contract.2 _ (get_m3u8_runs_self C3_TEXT)

/-- Markup with two distinct combined URIs that share the same filename
(`s1_av.m3u8` on hosts `a` and `b`) — a tie for the sort key. -/
def C9_TIE_TEXT : String :=
  "\\\"uri\\\":\\\"https:\\/\\/a\\/s1_av.m3u8?" ++
  "\\\"uri\\\":\\\"https:\\/\\/b\\/s1_av.m3u8?"

/-- The first (host `a`) raw match of `C9_TIE_TEXT`. -/
def C9_URL_A : String := "https:\\/\\/a\\/s1_av.m3u8"

/-- The second (host `b`) raw match of `C9_TIE_TEXT`. -/
def C9_URL_B : String := "https:\\/\\/b\\/s1_av.m3u8"

set_option maxRecDepth 100000 in
/-- C9 refuted as stated: two runs of the fallback extractor on the same page
text can return different orders.  On `C9_TIE_TEXT` the two surviving URIs
share the filename sort key, the final sort is stable, and Python fixes no
iteration order for `list(set(...))` over strings, so both relative orders
are possible results. -/
theorem c9_counterexample :
    ¬ (∀ (text : String) (r1 r2 : Except String (List String)),
        get_m3u8_runs text r1 → get_m3u8_runs text r2 → r1 = r2) := by
  intro hall
  have hfind : re_findall_m3u8 C9_TIE_TEXT = [C9_URL_A, C9_URL_B] := rfl
  have h1 : get_m3u8_runs C9_TIE_TEXT (m3u8_postprocess [C9_URL_A, C9_URL_B]) :=
    ⟨[C9_URL_A, C9_URL_B], ⟨by decide, fun u => by rw [hfind]⟩, rfl⟩
  have h2 : get_m3u8_runs C9_TIE_TEXT (m3u8_postprocess [C9_URL_B, C9_URL_A]) :=
    ⟨[C9_URL_B, C9_URL_A],
      ⟨by decide, fun u => by
        rw [hfind]
        simp only [List.mem_cons, List.not_mem_nil, or_false]
        tauto⟩, rfl⟩
  have heq := hall C9_TIE_TEXT _ _ h1 h2
  rw [show m3u8_postprocess [C9_URL_A, C9_URL_B] =
        .ok ["https://a/s1_av.m3u8", "https://b/s1_av.m3u8"] from rfl,
      show m3u8_postprocess [C9_URL_B, C9_URL_A] =
        .ok ["https://b/s1_av.m3u8", "https://a/s1_av.m3u8"] from rfl] at heq
  simp at heq

/-- C9 amended: the extractor's output order is reproducible whenever the
surviving (deduplicated, filtered, unescaped) URIs have pairwise-distinct
filenames — then any two runs, whatever set iteration order each saw, return
the identical list. -/
theorem c9_deterministic_on_distinct_filenames :
    ∀ (text : String) (r1 r2 : Except String (List String)),
      ((((re_findall_m3u8 text).dedup.filter avFilter).map py_replace_escaped).map
        fnameKey).Nodup →
      get_m3u8_runs text r1 → get_m3u8_runs text r2 → r1 = r2 := by
  intro text r1 r2 hkeys h1 h2
  exact m3u8_runs_unique text hkeys r1 r2 h1 h2

/-- Markup with two combined URIs with distinct filenames (`s2_av` then
`s1_av` on one host). -/
def C9_DISTINCT_TEXT : String :=
  "\\\"uri\\\":\\\"https:\\/\\/h\\/s2_av.m3u8?" ++
  "\\\"uri\\\":\\\"https:\\/\\/h\\/s1_av.m3u8?"

set_option maxRecDepth 100000 in
/-- Closed instance of the amended C9: on distinct filenames, two runs seeing
opposite set iteration orders agree. -/
theorem c9_witness :
    m3u8_postprocess ["https:\\/\\/h\\/s2_av.m3u8", "https:\\/\\/h\\/s1_av.m3u8"] =
      m3u8_postprocess ["https:\\/\\/h\\/s1_av.m3u8", "https:\\/\\/h\\/s2_av.m3u8"] := by
  have hfind : re_findall_m3u8 C9_DISTINCT_TEXT =
      ["https:\\/\\/h\\/s2_av.m3u8", "https:\\/\\/h\\/s1_av.m3u8"] := rfl
  refine c9_deterministic_on_distinct_filenames C9_DISTINCT_TEXT _ _ (by decide)
    ⟨["https:\\/\\/h\\/s2_av.m3u8", "https:\\/\\/h\\/s1_av.m3u8"],
      ⟨by decide, fun u => by rw [hfind]⟩, rfl⟩
    ⟨["https:\\/\\/h\\/s1_av.m3u8", "https:\\/\\/h\\/s2_av.m3u8"],
      ⟨by decide, fun u => by
        rw [hfind]
        simp only [List.mem_cons, List.not_mem_nil, or_false]
        tauto⟩, rfl⟩

/- ### Helper lemmas: shape of every regex match (for C10) -/

/-- What the `(?:a|v|av).m3u8` tail of a match can look like inside the
capture group. -/
def AltShape (ag : List Char) : Prop :=
  ∃ c, c ≠ '\n' ∧ (ag = 'a' :: c :: ['m', '3', 'u', '8'] ∨
    ag = 'v' :: c :: ['m', '3', 'u', '8'] ∨ ag = 'a' :: 'v' :: c :: ['m', '3', 'u', '8'])

/-- Every capture group ends in `\/s{d}_` with `d ∈ {0,1,2}` followed by an
alternation tail. -/
def MarkerShape (g : List Char) : Prop :=
  ∃ pre d ag, (d = '0' ∨ d = '1' ∨ d = '2') ∧ AltShape ag ∧
    g = pre ++ '\\' :: '/' :: 's' :: d :: '_' :: ag

theorem matchEnd1_shape {cs g rest : List Char} (h : matchEnd1 cs = some (g, rest)) :
    ∃ c, c ≠ '\n' ∧ g = c :: ['m', '3', 'u', '8'] := by
  unfold matchEnd1 at h
  cases cs with
  | nil => simp at h
  | cons c r =>
    dsimp only at h
    split at h
    · simp at h
    next hc =>
    rcases hm : matchLit ['m', '3', 'u', '8', '?'] r with _ | r2 <;> rw [hm] at h <;>
      dsimp only at h
    · simp at h
    · simp only [Option.some.injEq, Prod.mk.injEq] at h
      exact ⟨c, hc, h.1.symm⟩

theorem branchA_shape {cs g rest : List Char} (h : branchA cs = some (g, rest)) :
    ∃ c, c ≠ '\n' ∧ g = 'a' :: c :: ['m', '3', 'u', '8'] := by
  unfold branchA at h
  cases cs with
  | nil => simp at h
  | cons c0 r =>
    dsimp only at h
    split at h
    · next hc0 =>
      rw [Option.map_eq_some'] at h
      obtain ⟨⟨g1, r1⟩, hend, heq⟩ := h
      simp only [Prod.mk.injEq] at heq
      obtain ⟨c, hc, hg⟩ := matchEnd1_shape hend
      exact ⟨c, hc, by rw [← heq.1, hg]⟩
    · simp at h

theorem branchV_shape {cs g rest : List Char} (h : branchV cs = some (g, rest)) :
    ∃ c, c ≠ '\n' ∧ g = 'v' :: c :: ['m', '3', 'u', '8'] := by
  unfold branchV at h
  cases cs with
  | nil => simp at h
  | cons c0 r =>
    dsimp only at h
    split at h
    · next hc0 =>
      rw [Option.map_eq_some'] at h
      obtain ⟨⟨g1, r1⟩, hend, heq⟩ := h
      simp only [Prod.mk.injEq] at heq
      obtain ⟨c, hc, hg⟩ := matchEnd1_shape hend
      exact ⟨c, hc, by rw [← heq.1, hg]⟩
    · simp at h

theorem branchAV_shape {cs g rest : List Char} (h : branchAV cs = some (g, rest)) :
    ∃ c, c ≠ '\n' ∧ g = 'a' :: 'v' :: c :: ['m', '3', 'u', '8'] := by
  unfold branchAV at h
  split at h
  · next c1 c2 r =>
    split at h
    · next hcond =>
      rw [Option.map_eq_some'] at h
      obtain ⟨⟨g1, r1⟩, hend, heq⟩ := h
      simp only [Prod.mk.injEq] at heq
      obtain ⟨c, hc, hg⟩ := matchEnd1_shape hend
      exact ⟨c, hc, by rw [← heq.1, hg]⟩
    · simp at h
  · simp at h

theorem matchAlt_shape {cs g rest : List Char} (h : matchAlt cs = some (g, rest)) :
    AltShape g := by
  unfold matchAlt at h
  rcases hb1 : branchA cs with _ | p <;> rw [hb1] at h <;> dsimp only at h
  · rcases hb2 : branchV cs with _ | p <;> rw [hb2] at h <;> dsimp only at h
    · obtain ⟨c, hc, hg⟩ := branchAV_shape h
      exact ⟨c, hc, Or.inr (Or.inr hg)⟩
    · obtain rfl := Option.some.inj h
      obtain ⟨c, hc, hg⟩ := branchV_shape hb2
      exact ⟨c, hc, Or.inr (Or.inl hg)⟩
  · obtain rfl := Option.some.inj h
    obtain ⟨c, hc, hg⟩ := branchA_shape hb1
    exact ⟨c, hc, Or.inl hg⟩

theorem matchSlashTail_shape {cs g rest : List Char}
    (h : matchSlashTail cs = some (g, rest)) :
    ∃ d ag, (d = '0' ∨ d = '1' ∨ d = '2') ∧ AltShape ag ∧
      g = '\\' :: '/' :: 's' :: d :: '_' :: ag := by
  unfold matchSlashTail at h
  split at h
  · next d r =>
    split at h
    · next hd =>
      rw [Option.map_eq_some'] at h
      obtain ⟨⟨g1, r1⟩, halt, heq⟩ := h
      simp only [Prod.mk.injEq] at heq
      exact ⟨d, g1, hd, matchAlt_shape halt, by rw [← heq.1]⟩
    · simp at h
  · simp at h

theorem matchBody_shape : ∀ {cs g rest : List Char}, matchBody cs = some (g, rest) →
    MarkerShape g := by
  intro cs
  induction cs with
  | nil =>
    intro g rest h
    simp [matchBody] at h
  | cons c r ih =>
    intro g rest h
    simp only [matchBody] at h
    rcases hst : matchSlashTail (c :: r) with _ | p <;> rw [hst] at h <;> dsimp only at h
    · split at h
      · simp at h
      rw [Option.map_eq_some'] at h
      obtain ⟨⟨g1, r1⟩, hrec, heq⟩ := h
      simp only [Prod.mk.injEq] at heq
      obtain ⟨pre, d, ag, hd, hag, hg1⟩ := ih hrec
      refine ⟨c :: pre, d, ag, hd, hag, ?_⟩
      rw [← heq.1, hg1]
      rfl
    · obtain rfl := Option.some.inj h
      obtain ⟨d, ag, hd, hag, hg⟩ := matchSlashTail_shape hst
      exact ⟨[], d, ag, hd, hag, by rw [hg]; rfl⟩

theorem matchUri_shape {cs g rest : List Char} (h : matchUri cs = some (g, rest)) :
    MarkerShape g := by
  unfold matchUri at h
  rcases hm1 : matchLit URI_LIT cs with _ | cs1 <;> rw [hm1] at h <;> dsimp only at h
  · simp at h
  rcases hm2 : matchLit HTTPS_ESC_LIT cs1 with _ | cs2 <;> rw [hm2] at h <;> dsimp only at h
  · simp at h
  rw [Option.map_eq_some'] at h
  obtain ⟨⟨g1, r1⟩, hbody, heq⟩ := h
  simp only [Prod.mk.injEq] at heq
  obtain ⟨pre, d, ag, hd, hag, hg1⟩ := matchBody_shape hbody
  refine ⟨HTTPS_ESC_LIT ++ pre, d, ag, hd, hag, ?_⟩
  rw [← heq.1, hg1, List.append_assoc]

theorem findallFrom_shape : ∀ (fuel : Nat) (cs g : List Char),
    g ∈ findallFrom fuel cs → MarkerShape g := by
  intro fuel
  induction fuel with
  | zero =>
    intro cs g h
    simp [findallFrom] at h
  | succ f ih =>
    intro cs g h
    simp only [findallFrom] at h
    rcases hu : matchUri cs with _ | ⟨g2, rest⟩ <;> rw [hu] at h <;> dsimp only at h
    · cases cs with
      | nil => simp at h
      | cons c r => exact ih r g h
    · rcases List.mem_cons.mp h with rfl | hmem
      · exact matchUri_shape hu
      · exact ih rest g hmem

/- ### Helper lemmas: unescaping preserves the marker suffix (for C10) -/

theorem unescapeSlashes_no_bs : ∀ {t : List Char}, '\\' ∉ t → unescapeSlashes t = t := by
  intro t
  induction t with
  | nil => intro _; rfl
  | cons c rest ih =>
    intro hmem
    rw [List.mem_cons, not_or] at hmem
    obtain ⟨hc, hrest⟩ := hmem
    cases rest with
    | nil => rfl
    | cons c2 r2 =>
      simp only [unescapeSlashes]
      rw [if_neg (fun hp => hc hp.1.symm), ih hrest]

theorem unescape_pair_suffix_fuel (t : List Char) (ht : '\\' ∉ t) :
    ∀ (n : Nat) (a : List Char), a.length ≤ n →
      ∃ b, unescapeSlashes (a ++ '\\' :: '/' :: t) = b ++ '/' :: t := by
  intro n
  induction n with
  | zero =>
    intro a ha
    have ha0 : a = [] := List.eq_nil_of_length_eq_zero (Nat.le_zero.mp ha)
    subst ha0
    refine ⟨[], ?_⟩
    show '/' :: unescapeSlashes t = [] ++ '/' :: t
    rw [unescapeSlashes_no_bs ht]
    rfl
  | succ m ih =>
    intro a ha
    cases a with
    | nil =>
      refine ⟨[], ?_⟩
      show '/' :: unescapeSlashes t = [] ++ '/' :: t
      rw [unescapeSlashes_no_bs ht]
      rfl
    | cons c a' =>
      cases a' with
      | nil =>
        by_cases hc : c = '\\'
        · subst hc
          refine ⟨['\\'], ?_⟩
          simp [unescapeSlashes, unescapeSlashes_no_bs ht]
        · refine ⟨[c], ?_⟩
          simp [unescapeSlashes, unescapeSlashes_no_bs ht, hc]
      | cons c2 a'' =>
        by_cases hcp : c = '\\' ∧ c2 = '/'
        · obtain ⟨hc1, hc2⟩ := hcp
          subst hc1
          subst hc2
          obtain ⟨b, hb⟩ := ih a'' (by simp at ha; omega)
          refine ⟨'/' :: b, ?_⟩
          show '/' :: unescapeSlashes (a'' ++ '\\' :: '/' :: t) = ('/' :: b) ++ '/' :: t
          rw [hb]
          rfl
        · obtain ⟨b, hb⟩ := ih (c2 :: a'') (by simp at ha ⊢; omega)
          refine ⟨c :: b, ?_⟩
          simp only [List.cons_append] at hb
          simp only [List.cons_append, unescapeSlashes, List.append_eq]
          rw [if_neg hcp, hb]

theorem unescape_pair_suffix (a t : List Char) (ht : '\\' ∉ t) :
    ∃ b, unescapeSlashes (a ++ '\\' :: '/' :: t) = b ++ '/' :: t :=
  unescape_pair_suffix_fuel t ht a.length a le_rfl

theorem survivor_marker {v : String} (hshape : MarkerShape v.data)
    (hav : avFilter v = true) :
    ∃ d, (d = '0' ∨ d = '1' ∨ d = '2') ∧
      ('/' :: 's' :: d :: ['_', 'a', 'v', '.', 'm', '3', 'u', '8']) <:+
        (py_replace_escaped v).data := by
  obtain ⟨pre, d, ag, hd, ⟨c, hc, hag⟩, hv⟩ := hshape
  have hsuf : ['_', 'a', 'v', '.', 'm', '3', 'u', '8'] <:+ v.data :=
    of_decide_eq_true (show py_endswith v "_av.m3u8" = true from hav)
  obtain ⟨t0, ht0⟩ := hsuf
  rcases hag with rfl | rfl | rfl
  · exfalso
    have heq : t0 ++ ['_', 'a', 'v', '.', 'm', '3', 'u', '8'] =
        (pre ++ ['\\', '/', 's']) ++ [d, '_', 'a', c, 'm', '3', 'u', '8'] := by
      rw [ht0, hv]
      simp [List.append_assoc]
    have h2 := (List.append_inj' heq rfl).2
    simp only [List.cons.injEq] at h2
    exact absurd h2.2.1 (by decide)
  · exfalso
    have heq : t0 ++ ['_', 'a', 'v', '.', 'm', '3', 'u', '8'] =
        (pre ++ ['\\', '/', 's']) ++ [d, '_', 'v', c, 'm', '3', 'u', '8'] := by
      rw [ht0, hv]
      simp [List.append_assoc]
    have h2 := (List.append_inj' heq rfl).2
    simp only [List.cons.injEq] at h2
    exact absurd h2.2.1 (by decide)
  · have heq : t0 ++ ['_', 'a', 'v', '.', 'm', '3', 'u', '8'] =
        (pre ++ ['\\', '/', 's', d]) ++ ['_', 'a', 'v', c, 'm', '3', 'u', '8'] := by
      rw [ht0, hv]
      simp [List.append_assoc]
    have h2 := (List.append_inj' heq rfl).2
    simp only [List.cons.injEq] at h2
    have hcdot : c = '.' := by
      simp at h2
      exact h2.symm
    subst hcdot
    have hform : v.data = pre ++ '\\' :: '/' ::
        ('s' :: d :: ['_', 'a', 'v', '.', 'm', '3', 'u', '8']) := by
      rw [hv]
    have hnb : '\\' ∉ ('s' :: d :: ['_', 'a', 'v', '.', 'm', '3', 'u', '8']) := by
      intro hmem
      rcases List.mem_cons.mp hmem with h | h
      · exact absurd h (by decide)
      rcases List.mem_cons.mp h with h | h
      · rcases hd with rfl | rfl | rfl <;> exact absurd h (by decide)
      · exact absurd h (by decide)
    obtain ⟨b, hb⟩ := unescape_pair_suffix pre _ hnb
    refine ⟨d, hd, ?_⟩
    show _ <:+ unescapeSlashes v.data
    rw [hform, hb]
    exact ⟨b, rfl⟩

/-- Markup whose only manifest URI carries the out-of-range marker `s3`. -/
def C10_S3_TEXT : String := "\\\"uri\\\":\\\"https:\\/\\/a\\/s3_av.m3u8?"

set_option maxRecDepth 100000 in
/-- C10: every URL the fallback extractor ever returns ends in
`/s{d}_av.m3u8` with `d ∈ {0, 1, 2}` — the regex `s[0-2]` never matches a
higher segment marker; and on a page whose only combined manifest is
`s3_av.m3u8` every run fails with `"No video URLs found"`. -/
theorem c10_marker_bounded :
    (∀ text r urls u, get_m3u8_runs text r → r = .ok urls → u ∈ urls →
      ∃ d, (d = '0' ∨ d = '1' ∨ d = '2') ∧
        ('/' :: 's' :: d :: ['_', 'a', 'v', '.', 'm', '3', 'u', '8']) <:+ u.data) ∧
    (∀ r, get_m3u8_runs C10_S3_TEXT r → r = .error "No video URLs found") := by
  constructor
  · rintro text r urls u ⟨dd, ⟨hnd, hmem⟩, rfl⟩ hok hu
    simp only [m3u8_postprocess] at hok
    by_cases hemp : dd.filter avFilter = []
    · rw [if_pos hemp] at hok
      simp at hok
    · rw [if_neg hemp] at hok
      have hs := Except.ok.inj hok
      subst hs
      have hu2 : u ∈ (dd.filter avFilter).map py_replace_escaped :=
        (List.perm_insertionSort fnameRel _).mem_iff.mp hu
      obtain ⟨v, hvmem, rfl⟩ := List.mem_map.mp hu2
      have hvfil := List.mem_filter.mp hvmem
      have hvfind : v ∈ re_findall_m3u8 text := (hmem v).mp hvfil.1
      unfold re_findall_m3u8 at hvfind
      obtain ⟨g, hg, rfl⟩ := List.mem_map.mp hvfind
      exact survivor_marker (findallFrom_shape _ _ _ hg) hvfil.2
  · rintro r ⟨d, ⟨hnd, hmem⟩, rfl⟩
    have hfind : re_findall_m3u8 C10_S3_TEXT = [] := rfl
    have hd0 : d = [] := by
      rw [List.eq_nil_iff_forall_not_mem]
      intro u hu
      have hx := (hmem u).mp hu
      rw [hfind] at hx
      simp at hx
    subst hd0
    rfl

/-- Markup with a single in-range combined manifest (`s1_av`). -/
def C10_W_TEXT : String := "\\\"uri\\\":\\\"https:\\/\\/h\\/s1_av.m3u8?"

set_option maxRecDepth 100000 in
/-- Closed instance of C10: the single URL returned on `C10_W_TEXT` indeed
ends in an `/s{d}_av.m3u8` marker with `d ∈ {0, 1, 2}`. -/
theorem c10_witness :
    ∃ d, (d = '0' ∨ d = '1' ∨ d = '2') ∧
      ('/' :: 's' :: d :: ['_', 'a', 'v', '.', 'm', '3', 'u', '8']) <:+
        ("https://h/s1_av.m3u8" : String).data := by
  have hdet : get_m3u8_download_links C10_W_TEXT = .ok ["https://h/s1_av.m3u8"] := rfl
  exact c10_marker_bounded.1 C10_W_TEXT _ ["https://h/s1_av.m3u8"] "https://h/s1_av.m3u8"
    (get_m3u8_runs_self C10_W_TEXT) hdet (by simp)

/- ### C7: per-lesson error handling in the multi-lesson loop -/

/-- A classroom page with no manifest URIs at all. -/
def C7_BAD_TEXT : String := "no streams here"

/-- A classroom page with one combined manifest URI. -/
def C7_GOOD_TEXT : String := "\\\"uri\\\":\\\"https:\\/\\/g\\/s1_av.m3u8?"

set_option maxRecDepth 100000 in
/-- C7 refuted as stated: the `download_lessons` loop has no per-lesson
handler, so a `NoStreamsFound` (`"No video URLs found"`) failure is not
caught and reported per-lesson — it ends the run, and sibling lessons after
the failing one are never attempted.  With a failing first lesson and a good
second lesson, only one lesson is attempted. -/
theorem c7_counterexample :
    ¬ (∀ texts : List String,
        (download_lessons_trace texts).length = texts.length) := by
  intro hall
  have hx := hall [C7_BAD_TEXT, C7_GOOD_TEXT]
  rw [show download_lessons_trace [C7_BAD_TEXT, C7_GOOD_TEXT] =
      [.error "No video URLs found"] from rfl] at hx
  simp at hx

set_option maxRecDepth 100000 in
/-- C7 amended: the loop aborts at the first failing lesson.  If the first
`k` lessons resolve and lesson `k` fails, the run's trace is exactly the `k`
successful resolutions followed by the failure — lessons after index `k` are
not resolved. -/
theorem c7_abort_on_first_failure :
    ∀ (texts : List String) (k : Nat), k < texts.length →
      (∀ j, j < k → ∃ us, get_m3u8_download_links (texts.getD j "") = .ok us) →
      (∃ e, get_m3u8_download_links (texts.getD k "") = .error e) →
      download_lessons_trace texts =
        (texts.take k).map (fun t => get_m3u8_download_links t) ++
          [get_m3u8_download_links (texts.getD k "")] := by
  intro texts
  induction texts with
  | nil =>
    intro k hk
    simp at hk
  | cons t rest ih =>
    intro k hk hok herr
    cases k with
    | zero =>
      obtain ⟨e, he⟩ := herr
      rw [List.getD_cons_zero] at he
      simp only [download_lessons_trace, List.getD_cons_zero, List.take_zero, List.map_nil,
        List.nil_append]
      rw [he]
    | succ k' =>
      obtain ⟨us0, hok0⟩ := hok 0 (Nat.succ_pos k')
      rw [List.getD_cons_zero] at hok0
      have hrec := ih k' (by simpa using hk)
        (fun j hj => by
          have := hok (j + 1) (by omega)
          rwa [List.getD_cons_succ] at this)
        (by
          obtain ⟨e, he⟩ := herr
          rw [List.getD_cons_succ] at he
          exact ⟨e, he⟩)
      simp only [download_lessons_trace, List.getD_cons_succ, List.take_succ_cons,
        List.map_cons, List.cons_append]
      rw [hok0, hrec]

set_option maxRecDepth 100000 in
/-- Closed instance of the amended C7: good lesson, failing lesson, good
lesson — the trace stops at the failure and the third lesson is never
resolved. -/
theorem c7_witness :
    download_lessons_trace [C7_GOOD_TEXT, C7_BAD_TEXT, C7_GOOD_TEXT] =
      ([C7_GOOD_TEXT, C7_BAD_TEXT, C7_GOOD_TEXT].take 1).map
          (fun t => get_m3u8_download_links t) ++
        [get_m3u8_download_links ([C7_GOOD_TEXT, C7_BAD_TEXT, C7_GOOD_TEXT].getD 1 "")] := by
  refine c7_abort_on_first_failure _ 1 (by decide) ?_ ?_
  · intro j hj
    have hj0 : j = 0 := by omega
    subst hj0
    exact ⟨["https://g/s1_av.m3u8"], rfl⟩
  · exact ⟨"No video URLs found", rfl⟩

/- ### Fuel adequacy: every match consumes at least one character, so
`text.length` units of fuel complete the `findall` scan -/

theorem matchEnd1_rest_lt {cs g rest : List Char} (h : matchEnd1 cs = some (g, rest)) :
    rest.length < cs.length := by
  unfold matchEnd1 at h
  cases cs with
  | nil => simp at h
  | cons c r =>
    dsimp only at h
    split at h
    · simp at h
    rcases hm : matchLit ['m', '3', 'u', '8', '?'] r with _ | r2 <;> rw [hm] at h <;>
      dsimp only at h
    · simp at h
    · simp only [Option.some.injEq, Prod.mk.injEq] at h
      obtain ⟨_, hrest⟩ := h
      have hr : r = ['m', '3', 'u', '8', '?'] ++ r2 := matchLit_some_eq hm
      subst hr
      subst hrest
      simp only [List.length_cons, List.length_append]
      omega

theorem branchA_rest_lt {cs g rest : List Char} (h : branchA cs = some (g, rest)) :
    rest.length < cs.length := by
  unfold branchA at h
  cases cs with
  | nil => simp at h
  | cons c0 r =>
    dsimp only at h
    split at h
    · rw [Option.map_eq_some'] at h
      obtain ⟨⟨g1, r1⟩, hend, heq⟩ := h
      simp only [Prod.mk.injEq] at heq
      have hlt := matchEnd1_rest_lt hend
      rw [← heq.2]
      simp only [List.length_cons]
      omega
    · simp at h

theorem branchV_rest_lt {cs g rest : List Char} (h : branchV cs = some (g, rest)) :
    rest.length < cs.length := by
  unfold branchV at h
  cases cs with
  | nil => simp at h
  | cons c0 r =>
    dsimp only at h
    split at h
    · rw [Option.map_eq_some'] at h
      obtain ⟨⟨g1, r1⟩, hend, heq⟩ := h
      simp only [Prod.mk.injEq] at heq
      have hlt := matchEnd1_rest_lt hend
      rw [← heq.2]
      simp only [List.length_cons]
      omega
    · simp at h

theorem branchAV_rest_lt {cs g rest : List Char} (h : branchAV cs = some (g, rest)) :
    rest.length < cs.length := by
  unfold branchAV at h
  split at h
  · split at h
    · rw [Option.map_eq_some'] at h
      obtain ⟨⟨g1, r1⟩, hend, heq⟩ := h
      simp only [Prod.mk.injEq] at heq
      have hlt := matchEnd1_rest_lt hend
      rw [← heq.2]
      simp only [List.length_cons]
      omega
    · simp at h
  · simp at h

theorem matchAlt_rest_lt {cs g rest : List Char} (h : matchAlt cs = some (g, rest)) :
    rest.length < cs.length := by
  unfold matchAlt at h
  rcases hb1 : branchA cs with _ | p <;> rw [hb1] at h <;> dsimp only at h
  · rcases hb2 : branchV cs with _ | p <;> rw [hb2] at h <;> dsimp only at h
    · exact branchAV_rest_lt h
    · obtain rfl := Option.some.inj h
      exact branchV_rest_lt hb2
  · obtain rfl := Option.some.inj h
    exact branchA_rest_lt hb1

theorem matchSlashTail_rest_lt {cs g rest : List Char}
    (h : matchSlashTail cs = some (g, rest)) :
    rest.length < cs.length := by
  unfold matchSlashTail at h
  split at h
  · split at h
    · rw [Option.map_eq_some'] at h
      obtain ⟨⟨g1, r1⟩, halt, heq⟩ := h
      simp only [Prod.mk.injEq] at heq
      have hlt := matchAlt_rest_lt halt
      rw [← heq.2]
      simp only [List.length_cons]
      omega
    · simp at h
  · simp at h

theorem matchBody_rest_lt : ∀ {cs g rest : List Char}, matchBody cs = some (g, rest) →
    rest.length < cs.length := by
  intro cs
  induction cs with
  | nil =>
    intro g rest h
    simp [matchBody] at h
  | cons c r ih =>
    intro g rest h
    simp only [matchBody] at h
    rcases hst : matchSlashTail (c :: r) with _ | p <;> rw [hst] at h <;> dsimp only at h
    · split at h
      · simp at h
      rw [Option.map_eq_some'] at h
      obtain ⟨⟨g1, r1⟩, hrec, heq⟩ := h
      simp only [Prod.mk.injEq] at heq
      have hlt := ih hrec
      rw [← heq.2]
      simp only [List.length_cons]
      omega
    · obtain rfl := Option.some.inj h
      exact matchSlashTail_rest_lt hst

theorem matchUri_rest_lt {cs g rest : List Char} (h : matchUri cs = some (g, rest)) :
    rest.length < cs.length := by
  unfold matchUri at h
  rcases hm1 : matchLit URI_LIT cs with _ | cs1 <;> rw [hm1] at h <;> dsimp only at h
  · simp at h
  rcases hm2 : matchLit HTTPS_ESC_LIT cs1 with _ | cs2 <;> rw [hm2] at h <;> dsimp only at h
  · simp at h
  rw [Option.map_eq_some'] at h
  obtain ⟨⟨g1, r1⟩, hbody, heq⟩ := h
  simp only [Prod.mk.injEq] at heq
  have hlt := matchBody_rest_lt hbody
  have h1 : cs = URI_LIT ++ cs1 := matchLit_some_eq hm1
  have h2 : cs1 = HTTPS_ESC_LIT ++ cs2 := matchLit_some_eq hm2
  rw [← heq.2]
  rw [h1, h2]
  simp only [List.length_append, URI_LIT, HTTPS_ESC_LIT, List.length_cons, List.length_nil]
  omega

theorem findallFrom_nil (fuel : Nat) : findallFrom fuel [] = [] := by
  cases fuel with
  | zero => rfl
  | succ f => rfl

/-- Any fuel of at least `cs.length` yields the same (complete) scan, so the
fuel choice in `re_findall_m3u8` is immaterial. -/
theorem findallFrom_fuel_irrelevant : ∀ (f1 f2 : Nat) (cs : List Char),
    cs.length ≤ f1 → cs.length ≤ f2 → findallFrom f1 cs = findallFrom f2 cs := by
  intro f1
  induction f1 with
  | zero =>
    intro f2 cs h1 _
    have h0 : cs = [] := List.eq_nil_of_length_eq_zero (Nat.le_zero.mp h1)
    subst h0
    rw [findallFrom_nil, findallFrom_nil]
  | succ f ih =>
    intro f2 cs h1 h2
    cases cs with
    | nil => rw [findallFrom_nil, findallFrom_nil]
    | cons c r =>
      cases f2 with
      | zero => simp at h2
      | succ f2' =>
        simp only [findallFrom]
        rcases hu : matchUri (c :: r) with _ | ⟨g, rest⟩ <;> dsimp only
        · exact ih f2' r (by simpa using h1) (by simpa using h2)
        · have hlt := matchUri_rest_lt hu
          simp only [List.length_cons] at h1 h2 hlt
          rw [ih f2' rest (by omega) (by omega)]
